import Mathlib

/-!
Verification of the PC-algorithm core in `src/algorithms/pc_algorithm.py`
(skeleton builder, collider orienter, orientation propagator) against its
natural-language specification.

Modelling conventions.
* Variables (pandas column names) are numbered; `Node := Nat`.
* An undirected graph (`networkx.Graph`) is an edge list `List (Node × Node)`;
  an edge is stored in one orientation only, exactly as `nx.complete_graph`
  enumerates it.  A directed graph (`networkx.DiGraph`) is also an edge list,
  where an undirected pair carries both orientations.  Membership queries model
  the dict-based `has_edge`; removal removes every occurrence, which coincides
  with `remove_edge` because the builders never create duplicates.
* The statistical primitive `pingouin.partial_corr` is external to the
  repository; its outcome for a given call is abstracted as an
  `Option ℚ` (the two-sided p-value, `none` when the computation raises).
  A whole conditional-independence oracle is abstracted as
  `Oracle : Node → Node → List Node → Bool`, the boolean returned by
  `partial_correlation_test` for fixed data and alpha.
* The unbounded `while True:` loops terminate because either the edge list
  shrinks or `k` grows past every degree; they are embedded with an explicit
  fuel argument that is always instantiated large enough, so that every
  function evaluates by `decide`/`rfl`.
-/

abbrev Node := Nat

abbrev Edge := Node × Node

abbrev Graph := List Edge

abbrev SepMap := List (Edge × List Node)

/-- A conditional-independence oracle: the boolean verdict of
`partial_correlation_test(data, i, j, S, alpha)` for fixed data and alpha,
as a function of the two variables and the conditioning set. -/
abbrev Oracle := Node → Node → List Node → Bool

/-- `set(graph.neighbors(node))` (`_get_neighbors` in the source), as the list of
neighbours of `v` in the undirected edge list `g`, in edge-list order. -/
def nbrs (g : Graph) (v : Node) : List Node :=
  g.filterMap fun e => if e.1 = v then some e.2 else if e.2 = v then some e.1 else none

/-- `set(graph.neighbors(i)) - {j}`: the neighbour set of `v` with `w` removed. -/
def adjExcl (g : Graph) (v w : Node) : List Node :=
  (nbrs g v).filter fun x => decide (x ≠ w)

/-- `itertools.combinations(l, k)`: all size-`k` subsets of `l`, each in list
order, enumerated lexicographically by position. -/
def combos : Nat → List Node → List (List Node)
  | 0, _ => [[]]
  | _ + 1, [] => []
  | k + 1, x :: xs => ((combos k xs).map fun s => x :: s) ++ combos (k + 1) xs

/-- Embeds `partial_correlation_test` (pc_algorithm.py lines 11-42).
`nSamples` is `len(data)`; `pval` abstracts the outcome of the
`pg.partial_corr` call: `some p` when it returns two-sided p-value `p`,
`none` when it raises (the `except` branch, e.g. a singular matrix).
The variables `i`, `j` play no role in the control flow once `pval` is
abstracted, so they are omitted. -/
def partial_correlation_test (nSamples : Nat) (S : List Node) (alpha : ℚ)
    (pval : Option ℚ) : Bool :=
  if nSamples < S.length + 3 then false
  else
    match pval with
    | none => false
    | some p => decide (alpha < p)

/-- The inner `for S in combinations(...)` search with `break` on the first
success: the first candidate conditioning set that the oracle accepts. -/
def findSep (test : Oracle) (i j : Node) (cands : List (List Node)) :
    Option (List Node) :=
  cands.find? fun S => test i j S

/-- Python-dict lookup in the sepset association list (`sepset.get((i, j))`). -/
def lookupSep : SepMap → Edge → Option (List Node)
  | [], _ => none
  | (k, v) :: rest, key => if k = key then some v else lookupSep rest key

/-- One pass of `pc_step_1_skeleton` at conditioning-set size `k`
(pc_algorithm.py lines 67-92): for each edge, try subsets of the
neighbours of `i`, then (only if none worked, the
`if (i, j) in edges_to_remove: continue` guard) subsets of the neighbours
of `j`; collect the edges to remove with their separating sets.
`k_changed` in the source is exactly "this list is nonempty". -/
def passK (test : Oracle) (g : Graph) (k : Nat) : List (Edge × List Node) :=
  g.filterMap fun e =>
    let adjI := adjExcl g e.1 e.2
    let adjJ := adjExcl g e.2 e.1
    match (if k ≤ adjI.length then findSep test e.1 e.2 (combos k adjI) else none) with
    | some S => some (e, S)
    | none =>
      match (if k ≤ adjJ.length then findSep test e.1 e.2 (combos k adjJ) else none) with
      | some S => some (e, S)
      | none => none

/-- `skeleton.remove_edges_from(edges_to_remove)`. -/
def removeEdges (g : Graph) (rem : List Edge) : Graph :=
  g.filter fun e => decide (e ∉ rem)

/-- The sepset entries a pass stores: each removed edge under both orderings,
with the same separating set (`sepset[(i,j)] = sepset[(j,i)] = set(S)`). -/
def sepAdditions (rems : List (Edge × List Node)) : SepMap :=
  rems.flatMap fun r => [((r.1.1, r.1.2), r.2), ((r.1.2, r.1.1), r.2)]

/-- The `while True:` outer loop of `pc_step_1_skeleton`
(pc_algorithm.py lines 63-99): run a pass at size `k`, apply all collected
removals at once, stop when the pass removed nothing, else continue at
`k + 1`.  `fuel` bounds the recursion; any `fuel > g.length` is enough,
because a continuing pass removes at least one edge. -/
def skelLoopF (test : Oracle) : Nat → Graph → SepMap → Nat → Graph × SepMap
  | 0, g, sep, _ => (g, sep)
  | fuel + 1, g, sep, k =>
    let rems := passK test g k
    if rems.isEmpty then (g, sep)
    else skelLoopF test fuel (removeEdges g (rems.map fun r => r.1))
      (sep ++ sepAdditions rems) (k + 1)

/-- `nx.complete_graph(nodes)`: every pair, the earlier node first. -/
def complete_graph : List Node → Graph
  | [] => []
  | x :: xs => (xs.map fun y => (x, y)) ++ complete_graph xs

/-- Embeds `pc_step_1_skeleton` (pc_algorithm.py lines 45-101). -/
def pc_step_1_skeleton (test : Oracle) (nodes : List Node) : Graph × SepMap :=
  skelLoopF test ((complete_graph nodes).length + 1) (complete_graph nodes) [] 0

/-- Instrumented variant of `skelLoopF` that additionally records, for each
pass, the list of removals the pass produced (the final, removal-free pass
included).  Used only to state properties of the loop's behaviour; its first
component is proved equal to `skelLoopF`. -/
def skelLoopTracedF (test : Oracle) :
    Nat → Graph → SepMap → Nat → (Graph × SepMap) × List (List (Edge × List Node))
  | 0, g, sep, _ => ((g, sep), [])
  | fuel + 1, g, sep, k =>
    let rems := passK test g k
    if rems.isEmpty then ((g, sep), [rems])
    else
      let r := skelLoopTracedF test fuel (removeEdges g (rems.map fun x => x.1))
        (sep ++ sepAdditions rems) (k + 1)
      (r.1, rems :: r.2)

/-- `pc_step_1_skeleton` with the per-pass removal trace. -/
def pc_step_1_skeletonTraced (test : Oracle) (nodes : List Node) :
    (Graph × SepMap) × List (List (Edge × List Node)) :=
  skelLoopTracedF test ((complete_graph nodes).length + 1) (complete_graph nodes) [] 0

/-- The per-edge removal decision of a pass, as a function of the pass-start
skeleton alone: try the neighbours of the first endpoint, then of the second
(the logic of pc_algorithm.py lines 68-92 for a single edge). -/
def edgeDecision (test : Oracle) (g : Graph) (k : Nat) (e : Edge) : Option (List Node) :=
  let adjI := adjExcl g e.1 e.2
  let adjJ := adjExcl g e.2 e.1
  match (if k ≤ adjI.length then findSep test e.1 e.2 (combos k adjI) else none) with
  | some S => some S
  | none => if k ≤ adjJ.length then findSep test e.1 e.2 (combos k adjJ) else none

/-- Modelled from the spec (claim C1): a pass in which every edge removal takes
effect immediately, so that the candidate pools of tests later in the same
pass are computed from the already-thinned skeleton.  Processes the pass-start
edge list; only the edge currently under test is ever removed, so no presence
check is needed. -/
def specCurrentPass (test : Oracle) (k : Nat) :
    List Edge → Graph → SepMap → Bool → Graph × SepMap × Bool
  | [], g, sep, ch => (g, sep, ch)
  | e :: es, g, sep, ch =>
    match edgeDecision test g k e with
    | some S =>
      specCurrentPass test k es (removeEdges g [e])
        (sep ++ [((e.1, e.2), S), ((e.2, e.1), S)]) true
    | none => specCurrentPass test k es g sep ch

/-- Modelled from the spec (claim C1): the skeleton builder whose passes use
up-to-date neighbours within a pass (`specCurrentPass`), with the same
stop-when-nothing-removed outer loop as the source. -/
def specCurrentLoopF (test : Oracle) : Nat → Graph → SepMap → Nat → Graph × SepMap
  | 0, g, sep, _ => (g, sep)
  | fuel + 1, g, sep, k =>
    let r := specCurrentPass test k g g sep false
    if r.2.2 then specCurrentLoopF test fuel r.1 r.2.1 (k + 1) else (r.1, r.2.1)

/-- Modelled from the spec (claim C1): entry point of the within-pass-current
skeleton builder. -/
def pc_step_1_skeleton_specCurrent (test : Oracle) (nodes : List Node) : Graph × SepMap :=
  specCurrentLoopF test ((complete_graph nodes).length + 1) (complete_graph nodes) [] 0

/-- `graph.nodes()` for a graph built from an edge list: nodes in order of
first appearance. -/
def firstSeenAux : List Node → List Node → List Node
  | _, [] => []
  | seen, x :: xs =>
    if x ∈ seen then firstSeenAux seen xs else x :: firstSeenAux (x :: seen) xs

/-- The node list of an edge list, in order of first appearance. -/
def nodesOf (p : Graph) : List Node :=
  firstSeenAux [] (p.flatMap fun e => [e.1, e.2])

/-- `G.has_edge(u, v)` on a directed edge list. -/
def hasEdgeB (p : Graph) (u v : Node) : Bool := decide ((u, v) ∈ p)

/-- `_has_undirected_edge`: both orientations present. -/
def undirB (p : Graph) (u v : Node) : Bool := hasEdgeB p u v && hasEdgeB p v u

/-- `_has_directed_edge`: `u -> v` present, `v -> u` absent. -/
def dirB (p : Graph) (u v : Node) : Bool := hasEdgeB p u v && !hasEdgeB p v u

/-- `_is_adjacent`: some orientation present. -/
def adjB (p : Graph) (u v : Node) : Bool := hasEdgeB p u v || hasEdgeB p v u

/-- `pdag.remove_edge(e)`; removing an absent edge is a no-op, so the
`if pdag.has_edge(...)` guards in the source are subsumed. -/
def removeDir (p : Graph) (e : Edge) : Graph := p.filter fun x => decide (x ≠ e)

/-- `skeleton.has_edge(i, j)` on an undirected edge list. -/
def adjUB (skel : Graph) (a b : Node) : Bool :=
  decide ((a, b) ∈ skel) || decide ((b, a) ∈ skel)

/-- `nx.DiGraph(skeleton)`: every skeleton edge in both orientations. -/
def bothDirs (skel : Graph) : Graph := skel.flatMap fun e => [(e.1, e.2), (e.2, e.1)]

/-- `sep is None or k not in sep` (pc_algorithm.py line 191): the collider
orientation for centre `c` and pair `(a, b)` is justified. -/
def sepAllows (sep : SepMap) (c a b : Node) : Bool :=
  match lookupSep sep (a, b) with
  | none => true
  | some s => decide (c ∉ s)

/-- The body of the triple loop of `pc_step_2_orient_colliders`
(pc_algorithm.py lines 182-195) for centre `c` and one neighbour pair. -/
def triStep (skel : Graph) (sep : SepMap) (c : Node) (pdag : Graph) (ab : Edge) : Graph :=
  if adjUB skel ab.1 ab.2 then pdag
  else if sepAllows sep c ab.1 ab.2 then removeDir (removeDir pdag (c, ab.1)) (c, ab.2)
  else pdag

/-- The per-centre loop: `for (i, j) in combinations(neighbors_k, 2)`;
`complete_graph` enumerates exactly `itertools.combinations(l, 2)`. -/
def centerStep (skel : Graph) (sep : SepMap) (pdag : Graph) (c : Node) : Graph :=
  (complete_graph (nbrs skel c)).foldl (triStep skel sep c) pdag

/-- Embeds `pc_step_2_orient_colliders` (pc_algorithm.py lines 166-197). -/
def pc_step_2_orient_colliders (skel : Graph) (sep : SepMap) : Graph :=
  (nodesOf skel).foldl (centerStep skel sep) (bothDirs skel)

/-- The directed edges that some unshielded triple instructs
`pc_step_2_orient_colliders` to remove (the removals depend only on the
skeleton and the sepset, never on the evolving PDAG). -/
def colliderRemovals (skel : Graph) (sep : SepMap) : List Edge :=
  (nodesOf skel).flatMap fun c =>
    (complete_graph (nbrs skel c)).flatMap fun ab =>
      if !adjUB skel ab.1 ab.2 && sepAllows sep c ab.1 ab.2 then
        [(c, ab.1), (c, ab.2)] else []

/-- Meek rule R1 fires for the undirected pair `(i, j)`
(pc_algorithm.py lines 236-250): some `k -> i` with `k`, `j` non-adjacent.
The source ranges `k` over `pdag.nodes()`; a node with no incident edge
cannot satisfy `_has_directed_edge`, so ranging over `nodesOf p` is
equivalent. -/
def r1Fires (p : Graph) (i j : Node) : Bool :=
  (nodesOf p).any fun k =>
    decide (k ≠ i) && decide (k ≠ j) && dirB p k i && !adjB p k j

/-- Meek rule R2 (pc_algorithm.py lines 257-271): a chain `i -> k -> j`. -/
def r2Fires (p : Graph) (i j : Node) : Bool :=
  (nodesOf p).any fun k =>
    decide (k ≠ i) && decide (k ≠ j) && dirB p i k && dirB p k j

/-- Meek rule R3 (pc_algorithm.py lines 279-300): two non-adjacent candidates
`k`, `l` with `i - k -> j` and `i - l -> j`. -/
def r3Fires (p : Graph) (i j : Node) : Bool :=
  (complete_graph ((nodesOf p).filter fun k =>
      decide (k ≠ i) && decide (k ≠ j) && undirB p i k && dirB p k j)).any
    fun kl => !adjB p kl.1 kl.2

/-- Meek rule R4 (pc_algorithm.py lines 308-333): `i - k`, `k`, `j`
non-adjacent, and a chain `k -> l -> j`. -/
def r4Fires (p : Graph) (i j : Node) : Bool :=
  (nodesOf p).any fun k =>
    decide (k ≠ i) && decide (k ≠ j) && undirB p i k && !adjB p k j &&
      ((nodesOf p).any fun l =>
        decide (l ≠ i) && decide (l ≠ j) && decide (l ≠ k) && dirB p k l && dirB p l j)

/-- One iteration of the `while True:` loop of `pc_step_3_orient_remaining`:
scan R1 through R4 in order over the current edge list, stopping at the first
undirected edge `(i, j)` some rule orients (the source `break`s out of every
loop right after a change and restarts).  Returns that `(i, j)`; the loop then
removes `(j, i)`. -/
def findFire (p : Graph) : Option Edge :=
  match p.find? (fun e => undirB p e.1 e.2 && r1Fires p e.1 e.2) with
  | some e => some e
  | none =>
    match p.find? (fun e => undirB p e.1 e.2 && r2Fires p e.1 e.2) with
    | some e => some e
    | none =>
      match p.find? (fun e => undirB p e.1 e.2 && r3Fires p e.1 e.2) with
      | some e => some e
      | none => p.find? fun e => undirB p e.1 e.2 && r4Fires p e.1 e.2

/-- The fixed-point loop of `pc_step_3_orient_remaining`
(pc_algorithm.py lines 230-339); any `fuel > p.length` is enough because
every continuing iteration removes one edge. -/
def step3F : Nat → Graph → Graph
  | 0, p => p
  | fuel + 1, p =>
    match findFire p with
    | none => p
    | some e => step3F fuel (removeDir p (e.2, e.1))

/-- Embeds `pc_step_3_orient_remaining` (pc_algorithm.py lines 200-341). -/
def pc_step_3_orient_remaining (p : Graph) : Graph := step3F (p.length + 1) p

/-- Log entries of `pc_step_1_skeleton_with_logging`, with the f-string text
abstracted to its data. -/
inductive LogEntry where
  | header (k : Nat)
  | removal (i j : Node) (S : List Node)
  | stop (k : Nat)
deriving DecidableEq

/-- The edge loop of `pc_step_1_skeleton_with_logging`
(pc_algorithm.py lines 132-152).  The source calls
`partial_correlation_test(data, i, j, set(S), alpha, log)` — six arguments —
but the module's `partial_correlation_test` (line 11) takes five parameters,
so the first attempted test raises `TypeError`; the call site is therefore
modelled as `Except.error "TypeError"`. -/
def loggingPass (g : Graph) (k : Nat) : List Edge → Except String Unit
  | [] => .ok ()
  | e :: es =>
    let adjI := adjExcl g e.1 e.2
    let adjJ := adjExcl g e.2 e.1
    let adjSet := if adjI.length ≤ adjJ.length then adjI else adjJ
    if k ≤ adjSet.length then
      match combos k adjSet with
      | [] => loggingPass g k es
      | _ :: _ => .error "TypeError"
    else loggingPass g k es

/-- The outer loop of `pc_step_1_skeleton_with_logging`
(pc_algorithm.py lines 126-161): since every attempted test raises, a
completed pass removed nothing, so the skeleton never changes and the sepset
stays empty; the loop stops when no node has `k` neighbours. -/
def loggingLoopF (nodes : List Node) :
    Nat → Graph → Nat → List LogEntry → Except String (Graph × SepMap × List LogEntry)
  | 0, g, _, log => .ok (g, [], log)
  | fuel + 1, g, k, log =>
    let log := log ++ [LogEntry.header k]
    match loggingPass g k g with
    | .error s => .error s
    | .ok _ =>
      if nodes.all fun n => (nbrs g n).length < k + 1 then
        .ok (g, [], log ++ [LogEntry.stop (k + 1)])
      else loggingLoopF nodes fuel g (k + 1) log

/-- Embeds the module-level `pc_step_1_skeleton_with_logging`
(pc_algorithm.py lines 103-164). -/
def pc_step_1_skeleton_with_logging (nodes : List Node) :
    Except String (Graph × SepMap × List LogEntry) :=
  loggingLoopF nodes ((complete_graph nodes).length + 2) (complete_graph nodes) 0 []

/-- Symmetric sepset storage: both orderings of a pair map to the same value. -/
def SepSym (sep : SepMap) : Prop := ∀ i j : Node, lookupSep sep (i, j) = lookupSep sep (j, i)

/-- Every sepset entry was accepted by the oracle and its pair is not in `g`. -/
def SepSound (test : Oracle) (sep : SepMap) (g : Graph) : Prop :=
  ∀ i j S, lookupSep sep (i, j) = some S →
    (test i j S = true ∨ test j i S = true) ∧ (i, j) ∉ g ∧ (j, i) ∉ g

/-- Each adjacent pair appears in at most one orientation (and no self-loops). -/
def Antisym (g : Graph) : Prop := ∀ a b : Node, (a, b) ∈ g → (b, a) ∉ g

/-- Claim C1 as stated: the skeleton builder behaves like the builder whose
candidate pools reflect the removals already performed in the same pass. -/
def currentNeighborsClaim : Prop :=
  ∀ (test : Oracle) (nodes : List Node),
    pc_step_1_skeleton test nodes = pc_step_1_skeleton_specCurrent test nodes

/-- Claim C2 as stated: for every unshielded triple `i - c - j`, the collider
orienter directs both edges into `c` exactly when the sepset of `(i, j)` is
missing or lacks `c`, and leaves the triple fully undirected when the sepset
contains `c`. -/
def colliderClaim : Prop :=
  ∀ (skel : Graph) (sep : SepMap) (c i j : Node),
    i ∈ nbrs skel c → j ∈ nbrs skel c → i ≠ j → adjUB skel i j = false →
    (sepAllows sep c i j = true →
      (i, c) ∈ pc_step_2_orient_colliders skel sep ∧
      (j, c) ∈ pc_step_2_orient_colliders skel sep ∧
      (c, i) ∉ pc_step_2_orient_colliders skel sep ∧
      (c, j) ∉ pc_step_2_orient_colliders skel sep) ∧
    (sepAllows sep c i j = false →
      (i, c) ∈ pc_step_2_orient_colliders skel sep ∧
      (c, i) ∈ pc_step_2_orient_colliders skel sep ∧
      (j, c) ∈ pc_step_2_orient_colliders skel sep ∧
      (c, j) ∈ pc_step_2_orient_colliders skel sep)

/-- Claim C3 as stated: when the skeleton builder's outer loop terminates
(after the pass at `k = trace length - 1`), no remaining node has at least
that many neighbours in the final skeleton. -/
def skeletonStopClaim : Prop :=
  ∀ (test : Oracle) (nodes : List Node), ∀ n ∈ nodes,
    (nbrs (pc_step_1_skeletonTraced test nodes).1.1 n).length <
      (pc_step_1_skeletonTraced test nodes).2.length - 1

/-- Oracle for the C1 counterexample: accepts the empty conditioning set for
pairs touching node 3 and every non-empty set for pairs among 0, 1, 2. -/
def oracleC1 : Oracle := fun i j S =>
  (S.isEmpty && (i == 3 || j == 3)) || (!S.isEmpty && i != 3 && j != 3)

/-- Oracle for the C3 counterexample: only `0 ⊥ 1` given the empty set. -/
def oracleC3 : Oracle := fun i j S => i == 0 && j == 1 && S.isEmpty

/-- Oracle for the C6 witness: only `0 ⊥ 1` given the empty set. -/
def oracleC6 : Oracle := fun i j S => i == 0 && j == 1 && S.isEmpty

/-- Skeleton for the C2 counterexample: path `0 - 1 - 2` plus edge `0 - 3`. -/
def skelC2 : Graph := [(0, 1), (1, 2), (0, 3)]

/-- Sepset for the C2 counterexample: `sepset(0,2) = {1}` (so the triple
`0 - 1 - 2` must stay undirected by the claim) and `sepset(1,3) = {}` (so the
triple `1 - 0 - 3` is a collider at 0, removing `0 -> 1` and `0 -> 3`). -/
def sepC2 : SepMap := [((0, 2), [1]), ((2, 0), [1]), ((1, 3), []), ((3, 1), [])]

/-- Skeleton for claim C10: `1 - 0 - 2` and `0 - 1 - 3` are both unshielded
triples with no recorded sepset, so the collider at 0 removes `0 -> 1` and
the collider at 1 removes `1 -> 0`. -/
def skelC10 : Graph := [(0, 1), (0, 2), (1, 3)]

/-- Input PDAG for the C5 witness: `0 -> 1` directed, `1 - 2` undirected. -/
def pdagC5 : Graph := [(0, 1), (1, 2), (2, 1)]


theorem lookupSep_append (sep₁ sep₂ : SepMap) (key : Edge) :
    lookupSep (sep₁ ++ sep₂) key =
      (lookupSep sep₁ key).orElse fun _ => lookupSep sep₂ key := by
  induction sep₁ with
  | nil => rfl
  | cons hd tl ih =>
    obtain ⟨k, v⟩ := hd
    by_cases h : k = key <;> simp [lookupSep, h, ih, Option.orElse]

theorem findSep_first (test : Oracle) (i j : Node) (cands : List (List Node))
    (S : List Node) (h : findSep test i j cands = some S) :
    test i j S = true ∧
      ∃ pre post, cands = pre ++ S :: post ∧ ∀ S' ∈ pre, test i j S' = false := by
  induction cands with
  | nil => simp [findSep] at h
  | cons hd tl ih =>
    by_cases hh : test i j hd = true
    · simp [findSep, List.find?, hh] at h
      subst h
      exact ⟨hh, [], tl, rfl, by simp⟩
    · simp only [findSep, List.find?, Bool.not_eq_true] at h ih ⊢
      rw [Bool.not_eq_true] at hh
      rw [hh] at h
      obtain ⟨ht, pre, post, hc, hpre⟩ := ih h
      refine ⟨ht, hd :: pre, post, by simp [hc], ?_⟩
      intro S' hS'
      rcases List.mem_cons.mp hS' with h1 | h1
      · exact h1 ▸ hh
      · exact hpre S' h1

/-- Claim C4: the independence oracle returns true (independent) exactly when
there are enough observations (at least `|S| + 3`) and the underlying
partial-correlation computation completes with a two-sided p-value exceeding
alpha; in particular, too few observations or a failed computation (`none`)
yield false (dependence), and the function is total, so no exception escapes. -/
theorem c4_oracle_conservative (n : Nat) (S : List Node) (alpha : ℚ) (pval : Option ℚ) :
    partial_correlation_test n S alpha pval = true ↔
      S.length + 3 ≤ n ∧ ∃ p, pval = some p ∧ alpha < p := by
  unfold partial_correlation_test
  rcases pval with _ | p
  · simp
  · by_cases h : n < S.length + 3 <;> simp [h, Nat.not_lt.mp, Nat.lt_iff_add_one_le]

/-- Claim C8 (code bug): the module-level `pc_step_1_skeleton_with_logging`
raises `TypeError` on any dataset with at least two columns, at the very first
independence test, because it passes six arguments to the five-parameter
`partial_correlation_test`; it never returns a skeleton, sepset or log. -/
theorem c8_logging_variant_raises :
    pc_step_1_skeleton_with_logging [0, 1] = Except.error "TypeError" := by
  rfl

/-- Claim C9 (counterexample): for the malformed input "empty variable set" the
skeleton builder does not raise an input-validation failure; it returns the
empty skeleton and empty sepset, contradicting "it never returns a graph for
such input". -/
theorem c9_counterexample :
    pc_step_1_skeleton (fun _ _ _ => false) [] = ([], []) := by
  rfl

/-- Claim C9 (amended): the pipeline performs no input validation.  For an
empty variable set it returns the empty skeleton and empty sepset, whatever
the oracle does — no independence test influences the result; and a failing
underlying statistical computation is absorbed by the oracle as a
"dependent" verdict, so malformed numeric data yields a returned graph, not
an exception. -/
theorem c9_no_validation :
    (∀ test : Oracle, pc_step_1_skeleton test [] = ([], [])) ∧
      ∀ (n : Nat) (S : List Node) (alpha : ℚ),
        partial_correlation_test n S alpha none = false := by
  constructor
  · intro test
    rfl
  · intro n S alpha
    unfold partial_correlation_test
    split <;> rfl

/-- Claim C10: on the skeleton `0-1, 0-2, 1-3` with an empty sepset record,
the triple `1 - 0 - 2` removes `0 -> 1` and the triple `0 - 1 - 3` removes
`1 -> 0`, so the returned PDAG lacks both orientations of the pair `(0, 1)`
even though `0` and `1` are adjacent in the skeleton. -/
theorem c10_adjacency_lost :
    adjUB skelC10 0 1 = true ∧
      (0, 1) ∉ pc_step_2_orient_colliders skelC10 [] ∧
      (1, 0) ∉ pc_step_2_orient_colliders skelC10 [] := by
  decide

/-- Claim C1 (counterexample): with the oracle `oracleC1` on variables
`[0, 1, 2, 3]`, the skeleton builder's output differs from that of the
builder whose candidate pools are updated within a pass, so the builder does
not use up-to-date within-pass neighbours: removals are applied only at the
end of each pass. -/
theorem c1_counterexample : ¬ currentNeighborsClaim := by
  intro h
  have := h oracleC1 [0, 1, 2, 3]
  revert this
  decide

/-- Claim C2 (counterexample): on the skeleton `0-1, 1-2, 0-3` with
`sepset(0,2) = {1}` and `sepset(1,3) = {}`, the triple `0 - 1 - 2` has its
centre `1` in `sepset(0,2)`, yet the pair `(0, 1)` does not stay undirected:
the unrelated collider at `0` (from the triple `1 - 0 - 3`) removes `0 -> 1`. -/
theorem c2_counterexample : ¬ colliderClaim := by
  intro h
  have := h skelC2 sepC2 1 0 2 (by decide) (by decide) (by decide) (by decide)
  have h2 := this.2 (by decide)
  revert h2
  decide

/-- Claim C3 (counterexample): with the oracle `oracleC3` on `[0, 1, 2]` the
builder stops after a pass at `k = 1` that removed nothing, although node `2`
still has two neighbours in the final skeleton — so termination is not "no
remaining node has at least `k` neighbours". -/
theorem c3_counterexample : ¬ skeletonStopClaim := by
  intro h
  have := h oracleC3 [0, 1, 2] 2 (by decide)
  revert this
  decide

theorem getLast?_cons_of_ne_nil {α : Type} (x : α) (l : List α) (h : l ≠ []) :
    (x :: l).getLast? = l.getLast? := by
  cases l with
  | nil => exact absurd rfl h
  | cons b t => exact List.getLast?_cons_cons

theorem dropLast_cons_of_ne_nil {α : Type} (x : α) (l : List α) (h : l ≠ []) :
    (x :: l).dropLast = x :: l.dropLast := by
  cases l with
  | nil => exact absurd rfl h
  | cons b t => rfl

theorem length_filter_lt {α : Type} (l : List α) (p : α → Bool) (a : α)
    (ha : a ∈ l) (hpa : p a = false) : (l.filter p).length < l.length := by
  induction l with
  | nil => cases ha
  | cons hd tl ih =>
    rcases List.mem_cons.mp ha with h | h
    · subst h
      simp only [List.filter, hpa]
      exact Nat.lt_succ_of_le (List.length_filter_le p tl)
    · by_cases hp : p hd = true
      · simpa [List.filter, hp] using Nat.succ_lt_succ (ih h)
      · rw [Bool.not_eq_true] at hp
        simp only [List.filter, hp]
        exact Nat.lt_trans (ih h) (Nat.lt_succ_self _)

theorem passK_mem (test : Oracle) (g : Graph) (k : Nat) (r : Edge × List Node)
    (h : r ∈ passK test g k) :
    r.1 ∈ g ∧ test r.1.1 r.1.2 r.2 = true := by
  obtain ⟨e, he, hfe⟩ := List.mem_filterMap.mp h
  revert hfe
  simp only
  split
  · rename_i S hS
    intro hfe
    cases hfe
    refine ⟨he, ?_⟩
    revert hS
    split
    · intro hS
      exact (findSep_first _ _ _ _ _ hS).1
    · intro hS
      cases hS
  · split
    · rename_i S hS
      intro hfe
      cases hfe
      refine ⟨he, ?_⟩
      revert hS
      split
      · intro hS
        exact (findSep_first _ _ _ _ _ hS).1
      · intro hS
        cases hS
    · intro hfe
      cases hfe

theorem removeEdges_length_lt (test : Oracle) (g : Graph) (k : Nat)
    (h : ¬ (passK test g k).isEmpty = true) :
    (removeEdges g ((passK test g k).map fun r => r.1)).length < g.length := by
  rcases hv : passK test g k with _ | ⟨r, rest⟩
  · rw [hv] at h
    simp at h
  · have hr : r ∈ passK test g k := by rw [hv]; exact List.mem_cons_self r rest
    have hm := (passK_mem test g k r hr).1
    refine length_filter_lt g _ r.1 hm ?_
    have : r.1 ∈ (passK test g k).map fun x => x.1 := List.mem_map_of_mem _ hr
    simp [this]

theorem skelLoopTracedF_fst (test : Oracle) (fuel : Nat) (g : Graph)
    (sep : SepMap) (k : Nat) :
    (skelLoopTracedF test fuel g sep k).1 = skelLoopF test fuel g sep k := by
  induction fuel generalizing g sep k with
  | zero => rfl
  | succ n ih =>
    simp only [skelLoopTracedF, skelLoopF]
    split
    · rfl
    · exact ih _ _ _

theorem skelLoopTracedF_trace (test : Oracle) (fuel : Nat) (g : Graph)
    (sep : SepMap) (k : Nat) (hfuel : g.length < fuel) :
    (skelLoopTracedF test fuel g sep k).2.getLast? = some [] ∧
      ((skelLoopTracedF test fuel g sep k).2.dropLast.all fun l => !l.isEmpty) = true := by
  induction fuel generalizing g sep k with
  | zero => cases hfuel
  | succ n ih =>
    simp only [skelLoopTracedF]
    split
    · rename_i hemp
      constructor
      · simp [List.isEmpty_iff.mp hemp]
      · simp
    · rename_i hemp
      have hlt := removeEdges_length_lt test g k hemp
      have ihh := ih (removeEdges g ((passK test g k).map fun r => r.1))
        (sep ++ sepAdditions (passK test g k)) (k + 1) (by omega)
      have hne : (skelLoopTracedF test n
          (removeEdges g ((passK test g k).map fun r => r.1))
          (sep ++ sepAdditions (passK test g k)) (k + 1)).2 ≠ [] := by
        intro hnil
        rw [hnil] at ihh
        simp at ihh
      constructor
      · rw [getLast?_cons_of_ne_nil _ _ hne]
        exact ihh.1
      · rw [dropLast_cons_of_ne_nil _ _ hne]
        simp only [List.all_cons, Bool.and_eq_true]
        refine ⟨?_, ihh.2⟩
        simp only [Bool.not_eq_true']
        exact Bool.not_eq_true _ ▸ (by simpa using hemp)

/-- Claim C3 (amended): the skeleton builder's outer loop increments `k` after
each full pass, and terminates exactly when the pass at the current `k`
removed no edge (every earlier pass removed at least one edge, the final pass
removed none); it does not check whether some node still has `k` neighbours.
Stated over the traced builder, whose result is the builder's result. -/
theorem c3_stops_on_empty_pass (test : Oracle) (nodes : List Node) :
    (pc_step_1_skeletonTraced test nodes).1 = pc_step_1_skeleton test nodes ∧
      (pc_step_1_skeletonTraced test nodes).2.getLast? = some [] ∧
      ((pc_step_1_skeletonTraced test nodes).2.dropLast.all fun l => !l.isEmpty) = true := by
  refine ⟨skelLoopTracedF_fst test _ _ _ _, ?_, ?_⟩
  · exact (skelLoopTracedF_trace test _ _ _ _ (Nat.lt_succ_self _)).1
  · exact (skelLoopTracedF_trace test _ _ _ _ (Nat.lt_succ_self _)).2

theorem passK_eq_snapshot (test : Oracle) (g : Graph) (k : Nat) :
    passK test g k =
      g.filterMap fun e => (edgeDecision test g k e).map fun S => (e, S) := by
  simp only [passK, edgeDecision]
  congr 1
  funext e
  split
  · rfl
  · split <;> rename_i h2 <;> rw [h2] <;> rfl

theorem skelLoopF_sublist (test : Oracle) (fuel : Nat) (g : Graph)
    (sep : SepMap) (k : Nat) : (skelLoopF test fuel g sep k).1.Sublist g := by
  induction fuel generalizing g sep k with
  | zero => exact List.Sublist.refl g
  | succ n ih =>
    simp only [skelLoopF]
    split
    · exact List.Sublist.refl g
    · exact List.Sublist.trans (ih _ _ _) (List.filter_sublist g)

/-- Claim C1 (amended): within one pass at size `k`, every edge's removal
decision is a function of the skeleton as it stood at the start of the pass —
removals found during the pass are collected and only applied together at the
end, so they do not shrink the candidate pools of subsequent tests in the
same pass; the pools do shrink from one pass to the next, as the skeleton is
only ever thinned (the final skeleton is a sublist of the complete graph). -/
theorem c1_pass_uses_snapshot :
    (∀ (test : Oracle) (g : Graph) (k : Nat),
      passK test g k =
        g.filterMap fun e => (edgeDecision test g k e).map fun S => (e, S)) ∧
    ∀ (test : Oracle) (nodes : List Node),
      (pc_step_1_skeleton test nodes).1.Sublist (complete_graph nodes) := by
  exact ⟨passK_eq_snapshot, fun test nodes => skelLoopF_sublist test _ _ _ _⟩

theorem mem_removeDir (p : Graph) (e x : Edge) :
    x ∈ removeDir p e ↔ x ∈ p ∧ x ≠ e := by
  simp [removeDir]

theorem mem_triStep (skel : Graph) (sep : SepMap) (c : Node) (pdag : Graph)
    (ab : Edge) (x : Edge) :
    x ∈ triStep skel sep c pdag ab ↔
      x ∈ pdag ∧ ((!adjUB skel ab.1 ab.2 && sepAllows sep c ab.1 ab.2) = true →
        x ≠ (c, ab.1) ∧ x ≠ (c, ab.2)) := by
  unfold triStep
  by_cases h1 : adjUB skel ab.1 ab.2 = true
  · simp [h1]
  · rw [Bool.not_eq_true] at h1
    by_cases h2 : sepAllows sep c ab.1 ab.2 = true
    · simp only [h1, h2, Bool.not_false, Bool.and_self, if_false, if_true,
        Bool.false_eq_true, mem_removeDir]
      constructor
      · rintro ⟨⟨hx, hne1⟩, hne2⟩
        exact ⟨hx, fun _ => ⟨hne1, hne2⟩⟩
      · rintro ⟨hx, hne⟩
        exact ⟨⟨hx, (hne trivial).1⟩, (hne trivial).2⟩
    · rw [Bool.not_eq_true] at h2
      simp [h1, h2]

theorem mem_foldl_triStep (skel : Graph) (sep : SepMap) (c : Node)
    (pairs : List Edge) (pdag : Graph) (x : Edge) :
    x ∈ pairs.foldl (triStep skel sep c) pdag ↔
      x ∈ pdag ∧ ∀ ab ∈ pairs,
        (!adjUB skel ab.1 ab.2 && sepAllows sep c ab.1 ab.2) = true →
          x ≠ (c, ab.1) ∧ x ≠ (c, ab.2) := by
  induction pairs generalizing pdag with
  | nil => simp
  | cons t ts ih =>
    rw [List.foldl_cons, ih, mem_triStep]
    constructor
    · rintro ⟨⟨hx, hc⟩, hall⟩
      refine ⟨hx, fun ab hab hcond => ?_⟩
      rcases List.mem_cons.mp hab with h | h
      · exact h ▸ hc (h ▸ hcond)
      · exact hall ab h hcond
    · rintro ⟨hx, hall⟩
      exact ⟨⟨hx, hall t (List.mem_cons_self t ts)⟩,
        fun ab hab => hall ab (List.mem_cons_of_mem t hab)⟩

theorem mem_foldl_centerStep (skel : Graph) (sep : SepMap) (cs : List Node)
    (pdag : Graph) (x : Edge) :
    x ∈ cs.foldl (centerStep skel sep) pdag ↔
      x ∈ pdag ∧ ∀ c ∈ cs, ∀ ab ∈ complete_graph (nbrs skel c),
        (!adjUB skel ab.1 ab.2 && sepAllows sep c ab.1 ab.2) = true →
          x ≠ (c, ab.1) ∧ x ≠ (c, ab.2) := by
  induction cs generalizing pdag with
  | nil => simp
  | cons t ts ih =>
    rw [List.foldl_cons, ih]
    unfold centerStep
    rw [mem_foldl_triStep]
    constructor
    · rintro ⟨⟨hx, hc⟩, hall⟩
      refine ⟨hx, fun c hcm ab hab hcond => ?_⟩
      rcases List.mem_cons.mp hcm with h | h
      · subst h
        exact hc ab hab hcond
      · exact hall c h ab hab hcond
    · rintro ⟨hx, hall⟩
      exact ⟨⟨hx, fun ab hab => hall t (List.mem_cons_self t ts) ab hab⟩,
        fun c hcm ab hab => hall c (List.mem_cons_of_mem t hcm) ab hab⟩

theorem mem_colliderRemovals (skel : Graph) (sep : SepMap) (x : Edge) :
    x ∈ colliderRemovals skel sep ↔
      ∃ c ∈ nodesOf skel, ∃ ab ∈ complete_graph (nbrs skel c),
        (!adjUB skel ab.1 ab.2 && sepAllows sep c ab.1 ab.2) = true ∧
          (x = (c, ab.1) ∨ x = (c, ab.2)) := by
  unfold colliderRemovals
  simp only [List.mem_flatMap]
  constructor
  · rintro ⟨c, hcm, ab, hab, hx⟩
    refine ⟨c, hcm, ab, hab, ?_⟩
    revert hx
    split
    · rename_i hcond
      intro hx
      rcases List.mem_cons.mp hx with h | h
      · exact ⟨hcond, Or.inl h⟩
      · exact ⟨hcond, Or.inr (by simpa using h)⟩
    · intro hx
      cases hx
  · rintro ⟨c, hcm, ab, hab, hcond, hx⟩
    refine ⟨c, hcm, ab, hab, ?_⟩
    rw [if_pos hcond]
    rcases hx with h | h
    · exact h ▸ List.mem_cons_self _ _
    · exact h ▸ List.mem_cons_of_mem _ (List.mem_cons_self _ _)

/-- Claim C2 (amended): the collider orienter removes from the doubly-oriented
skeleton exactly those directed edges `(c, x)` for which some unshielded
neighbour pair `(i, j)` of centre `c` with `x ∈ {i, j}` has its sepset
missing or lacking `c`.  In particular a triple whose sepset contains its
centre triggers no removal of its own, but its edges may still be directed
(or even fully deleted) on account of other overlapping triples, so "leaves
all three edges undirected" holds only in the absence of such overlap. -/
theorem c2_removal_characterization (skel : Graph) (sep : SepMap) (x : Edge) :
    x ∈ pc_step_2_orient_colliders skel sep ↔
      x ∈ bothDirs skel ∧ x ∉ colliderRemovals skel sep := by
  unfold pc_step_2_orient_colliders
  rw [mem_foldl_centerStep, mem_colliderRemovals]
  constructor
  · rintro ⟨hx, hall⟩
    refine ⟨hx, ?_⟩
    rintro ⟨c, hcm, ab, hab, hcond, hxe⟩
    rcases hxe with h | h
    · exact (hall c hcm ab hab hcond).1 h
    · exact (hall c hcm ab hab hcond).2 h
  · rintro ⟨hx, hnot⟩
    refine ⟨hx, fun c hcm ab hab hcond => ?_⟩
    constructor
    · intro h
      exact hnot ⟨c, hcm, ab, hab, hcond, Or.inl h⟩
    · intro h
      exact hnot ⟨c, hcm, ab, hab, hcond, Or.inr h⟩

theorem r1Fires_self (p : Graph) (i : Node) : r1Fires p i i = false := by
  unfold r1Fires
  rw [Bool.eq_false_iff]
  intro h
  obtain ⟨k, -, hk⟩ := List.any_eq_true.mp h
  simp only [Bool.and_eq_true] at hk
  have hdir := hk.1.2
  have hnadj := hk.2
  simp only [dirB, Bool.and_eq_true] at hdir
  rw [Bool.not_eq_true'] at hnadj
  simp only [adjB, Bool.or_eq_false_iff] at hnadj
  have hki := hdir.1
  rw [hnadj.1] at hki
  cases hki

theorem r2Fires_self (p : Graph) (i : Node) : r2Fires p i i = false := by
  unfold r2Fires
  rw [Bool.eq_false_iff]
  intro h
  obtain ⟨k, -, hk⟩ := List.any_eq_true.mp h
  simp only [Bool.and_eq_true] at hk
  have hdik := hk.1.2
  have hdki := hk.2
  simp only [dirB, Bool.and_eq_true] at hdik hdki
  have hn := hdik.2
  rw [Bool.not_eq_true'] at hn
  rw [hdki.1] at hn
  cases hn

theorem r3Fires_self (p : Graph) (i : Node) : r3Fires p i i = false := by
  unfold r3Fires
  have hnil : ((nodesOf p).filter fun k =>
      decide (k ≠ i) && decide (k ≠ i) && undirB p i k && dirB p k i) = [] := by
    rw [List.filter_eq_nil_iff]
    intro k _
    intro hp
    simp only [Bool.and_eq_true] at hp
    have hundir := hp.1.2
    have hdir := hp.2
    simp only [undirB, Bool.and_eq_true] at hundir
    simp only [dirB, Bool.and_eq_true] at hdir
    have hnik := hdir.2
    rw [Bool.not_eq_true'] at hnik
    rw [hundir.1] at hnik
    cases hnik
  rw [hnil]
  rfl

theorem r4Fires_self (p : Graph) (i : Node) : r4Fires p i i = false := by
  unfold r4Fires
  rw [Bool.eq_false_iff]
  intro h
  obtain ⟨k, -, hk⟩ := List.any_eq_true.mp h
  simp only [Bool.and_eq_true] at hk
  have hundir := hk.1.1.2
  have hnadj := hk.1.2
  simp only [undirB, Bool.and_eq_true] at hundir
  rw [Bool.not_eq_true'] at hnadj
  simp only [adjB, Bool.or_eq_false_iff] at hnadj
  have hik := hundir.1
  rw [hnadj.2] at hik
  cases hik

theorem findFire_spec (p : Graph) (e : Edge) (h : findFire p = some e) :
    e ∈ p ∧ (e.1, e.2) ∈ p ∧ (e.2, e.1) ∈ p ∧ e.1 ≠ e.2 := by
  have main : e ∈ p ∧ undirB p e.1 e.2 = true ∧
      (r1Fires p e.1 e.2 = true ∨ r2Fires p e.1 e.2 = true ∨
       r3Fires p e.1 e.2 = true ∨ r4Fires p e.1 e.2 = true) := by
    unfold findFire at h
    revert h
    split
    · rename_i h1
      intro h
      cases h
      have := List.find?_some h1
      rw [Bool.and_eq_true] at this
      exact ⟨List.mem_of_find?_eq_some h1, this.1, Or.inl this.2⟩
    · split
      · rename_i h2
        intro h
        cases h
        have := List.find?_some h2
        rw [Bool.and_eq_true] at this
        exact ⟨List.mem_of_find?_eq_some h2, this.1, Or.inr (Or.inl this.2)⟩
      · split
        · rename_i h3
          intro h
          cases h
          have := List.find?_some h3
          rw [Bool.and_eq_true] at this
          exact ⟨List.mem_of_find?_eq_some h3, this.1, Or.inr (Or.inr (Or.inl this.2))⟩
        · intro h4
          have := List.find?_some h4
          rw [Bool.and_eq_true] at this
          exact ⟨List.mem_of_find?_eq_some h4, this.1, Or.inr (Or.inr (Or.inr this.2))⟩
  obtain ⟨hmem, hundir, hrule⟩ := main
  have hne : e.1 ≠ e.2 := by
    intro heq
    rcases hrule with h | h | h | h
    · rw [heq, r1Fires_self] at h
      cases h
    · rw [heq, r2Fires_self] at h
      cases h
    · rw [heq, r3Fires_self] at h
      cases h
    · rw [heq, r4Fires_self] at h
      cases h
  simp only [undirB, Bool.and_eq_true, hasEdgeB, decide_eq_true_eq] at hundir
  exact ⟨hmem, hundir.1, hundir.2, hne⟩

theorem step3F_mem (fuel : Nat) (p : Graph) (x : Edge)
    (h : x ∈ step3F fuel p) : x ∈ p := by
  induction fuel generalizing p with
  | zero => exact h
  | succ n ih =>
    revert h
    simp only [step3F]
    split
    · exact id
    · intro h
      exact ((mem_removeDir _ _ _).mp (ih _ h)).1

theorem step3F_dir (fuel : Nat) (p : Graph) (u v : Node)
    (h : dirB p u v = true) : dirB (step3F fuel p) u v = true := by
  induction fuel generalizing p with
  | zero => exact h
  | succ n ih =>
    simp only [step3F]
    split
    · exact h
    · rename_i e hfe
      obtain ⟨-, hab, hba, -⟩ := findFire_spec p e hfe
      apply ih
      simp only [dirB, hasEdgeB, Bool.and_eq_true, decide_eq_true_eq,
        Bool.not_eq_true', decide_eq_false_iff_not, mem_removeDir] at h ⊢
      refine ⟨⟨h.1, ?_⟩, fun hc => h.2 hc.1⟩
      intro heq
      rw [Prod.mk.injEq] at heq
      obtain ⟨hu, hv⟩ := heq
      subst hu
      subst hv
      exact h.2 hab

theorem step3F_adj (fuel : Nat) (p : Graph) (u v : Node) :
    adjB (step3F fuel p) u v = adjB p u v := by
  induction fuel generalizing p with
  | zero => rfl
  | succ n ih =>
    simp only [step3F]
    split
    · rfl
    · rename_i e hfe
      obtain ⟨-, hab, hba, hne⟩ := findFire_spec p e hfe
      rw [ih]
      rw [Bool.eq_iff_iff]
      simp only [adjB, hasEdgeB, Bool.or_eq_true, decide_eq_true_eq, mem_removeDir]
      constructor
      · rintro (⟨h1, -⟩ | ⟨h1, -⟩)
        · exact Or.inl h1
        · exact Or.inr h1
      · rintro (h1 | h1)
        · by_cases hcase : (u, v) = (e.2, e.1)
          · refine Or.inr ⟨?_, ?_⟩
            · cases hcase
              exact hab
            · cases hcase
              intro hc
              rw [Prod.mk.injEq] at hc
              exact hne hc.1
          · exact Or.inl ⟨h1, hcase⟩
        · by_cases hcase : (v, u) = (e.2, e.1)
          · refine Or.inl ⟨?_, ?_⟩
            · cases hcase
              exact hab
            · cases hcase
              intro hc
              rw [Prod.mk.injEq] at hc
              exact hne hc.1
          · exact Or.inr ⟨h1, hcase⟩

/-- Claim C5: the orientation propagator preserves every directed edge of its
input (it never reverses or removes one), never adds an edge, and leaves the
adjacency structure untouched — only undirected pairs may lose one of their
two orientations. -/
theorem c5_directed_preserved (p : Graph) (u v : Node) :
    (dirB p u v = true → dirB (pc_step_3_orient_remaining p) u v = true) ∧
      ((u, v) ∈ pc_step_3_orient_remaining p → (u, v) ∈ p) ∧
      adjB (pc_step_3_orient_remaining p) u v = adjB p u v :=
  ⟨step3F_dir _ p u v, step3F_mem _ p (u, v), step3F_adj _ p u v⟩

/-- Claim C5 witness: on the PDAG `0 -> 1`, `1 - 2`, the directed edge
`0 -> 1` is still directed after propagation. -/
theorem c5_witness :
    dirB pdagC5 0 1 = true ∧ dirB (pc_step_3_orient_remaining pdagC5) 0 1 = true :=
  ⟨by decide, (c5_directed_preserved pdagC5 0 1).1 (by decide)⟩

theorem findFire_step3F_none (fuel : Nat) (p : Graph) (hfuel : p.length < fuel) :
    findFire (step3F fuel p) = none := by
  induction fuel generalizing p with
  | zero => cases hfuel
  | succ n ih =>
    simp only [step3F]
    split
    · rename_i hnone
      exact hnone
    · rename_i e hfe
      have hba := (findFire_spec p e hfe).2.2.1
      apply ih
      have hlt : (removeDir p (e.2, e.1)).length < p.length :=
        length_filter_lt p _ (e.2, e.1) hba (by simp)
      omega

/-- Claim C7: the orientation propagator is idempotent — running it on its own
output returns that output unchanged, because the output is a true fixed
point at which no Meek rule fires. -/
theorem c7_propagator_idempotent (p : Graph) :
    pc_step_3_orient_remaining (pc_step_3_orient_remaining p) =
      pc_step_3_orient_remaining p := by
  unfold pc_step_3_orient_remaining
  have hq : findFire (step3F (p.length + 1) p) = none :=
    findFire_step3F_none (p.length + 1) p (Nat.lt_succ_self _)
  generalize hG : step3F (p.length + 1) p = q at hq ⊢
  rw [step3F, hq]

theorem pair_swap_eq (a b i j : Node) : ((b, a) = (i, j)) ↔ ((a, b) = (j, i)) := by
  rw [Prod.mk.injEq, Prod.mk.injEq]
  exact and_comm

theorem lookupSep_sepAdditions (rems : List (Edge × List Node)) (i j : Node) :
    lookupSep (sepAdditions rems) (i, j) =
      (rems.find? fun r => decide (r.1 = (i, j)) || decide (r.1 = (j, i))).map
        fun r => r.2 := by
  induction rems with
  | nil => rfl
  | cons r rest ih =>
    obtain ⟨⟨a, b⟩, S⟩ := r
    simp only [sepAdditions, List.flatMap_cons] at *
    rw [List.cons_append, List.cons_append, List.nil_append]
    by_cases h1 : ((a, b) : Edge) = (i, j)
    · simp only [lookupSep, if_pos h1, List.find?]
      rw [show (decide ((a, b) = (i, j) : Prop) || decide ((a, b) = (j, i) : Prop)) = true by
        simp [h1]]
      rfl
    · by_cases h2 : ((b, a) : Edge) = (i, j)
      · simp only [lookupSep, if_neg h1, if_pos h2, List.find?]
        rw [show (decide ((a, b) = (i, j) : Prop) || decide ((a, b) = (j, i) : Prop)) = true by
          simp [(pair_swap_eq a b i j).mp h2]]
        rfl
      · simp only [lookupSep, if_neg h1, if_neg h2, List.find?]
        rw [show (decide ((a, b) = (i, j) : Prop) || decide ((a, b) = (j, i) : Prop)) = false by
          simp only [Bool.or_eq_false_iff, decide_eq_false_iff_not]
          exact ⟨h1, fun hc => h2 ((pair_swap_eq a b i j).mpr hc)⟩]
        exact ih

theorem mem_removeEdges (g : Graph) (rem : List Edge) (x : Edge) :
    x ∈ removeEdges g rem ↔ x ∈ g ∧ x ∉ rem := by
  simp [removeEdges]

theorem antisym_subset (g h : Graph) (hsub : ∀ x : Edge, x ∈ h → x ∈ g)
    (hanti : Antisym g) : Antisym h :=
  fun a b hab hba => hanti a b (hsub _ hab) (hsub _ hba)

theorem mem_complete_graph (l : List Node) (u v : Node)
    (h : (u, v) ∈ complete_graph l) : u ∈ l ∧ v ∈ l := by
  induction l with
  | nil => cases h
  | cons x xs ih =>
    rw [complete_graph, List.mem_append] at h
    rcases h with h | h
    · obtain ⟨y, hy, hxy⟩ := List.mem_map.mp h
      rw [Prod.mk.injEq] at hxy
      exact ⟨hxy.1 ▸ List.mem_cons_self x xs,
        List.mem_cons_of_mem x (hxy.2 ▸ hy)⟩
    · exact ⟨List.mem_cons_of_mem x (ih h).1, List.mem_cons_of_mem x (ih h).2⟩

theorem complete_graph_antisym (l : List Node) (hnd : l.Nodup) :
    Antisym (complete_graph l) := by
  induction l with
  | nil => exact fun a b h => by cases h
  | cons x xs ih =>
    rw [List.nodup_cons] at hnd
    intro a b hab hba
    rw [complete_graph, List.mem_append] at hab hba
    rcases hab with hab | hab <;> rcases hba with hba | hba
    · obtain ⟨y, hy, hxy⟩ := List.mem_map.mp hab
      obtain ⟨z, hz, hxz⟩ := List.mem_map.mp hba
      rw [Prod.mk.injEq] at hxy hxz
      exact hnd.1 ((hxy.2.trans hxz.1.symm) ▸ hy)
    · obtain ⟨y, hy, hxy⟩ := List.mem_map.mp hab
      rw [Prod.mk.injEq] at hxy
      exact hnd.1 (hxy.1 ▸ (mem_complete_graph xs b a hba).2)
    · obtain ⟨z, hz, hxz⟩ := List.mem_map.mp hba
      rw [Prod.mk.injEq] at hxz
      exact hnd.1 (hxz.1 ▸ (mem_complete_graph xs a b hab).2)
    · exact ih hnd.2 a b hab hba

theorem lookupSep_sepAdditions_sym (rems : List (Edge × List Node)) (i j : Node) :
    lookupSep (sepAdditions rems) (i, j) = lookupSep (sepAdditions rems) (j, i) := by
  rw [lookupSep_sepAdditions, lookupSep_sepAdditions]
  have : (fun r : Edge × List Node => decide (r.1 = (i, j)) || decide (r.1 = (j, i))) =
      fun r : Edge × List Node => decide (r.1 = (j, i)) || decide (r.1 = (i, j)) := by
    funext r
    exact Bool.or_comm _ _
  rw [this]

theorem skelLoopF_sep_invariant (test : Oracle) (fuel : Nat) (g : Graph)
    (sep : SepMap) (k : Nat) (hanti : Antisym g) (hsym : SepSym sep)
    (hsound : SepSound test sep g) :
    Antisym (skelLoopF test fuel g sep k).1 ∧
      SepSym (skelLoopF test fuel g sep k).2 ∧
      SepSound test (skelLoopF test fuel g sep k).2 (skelLoopF test fuel g sep k).1 ∧
      ∀ i j S, lookupSep (skelLoopF test fuel g sep k).2 (i, j) = some S →
        lookupSep sep (i, j) = some S ∨ (i, j) ∈ g ∨ (j, i) ∈ g := by
  induction fuel generalizing g sep k with
  | zero =>
    exact ⟨hanti, hsym, hsound, fun i j S h => Or.inl h⟩
  | succ n ih =>
    simp only [skelLoopF]
    split
    · exact ⟨hanti, hsym, hsound, fun i j S h => Or.inl h⟩
    · rename_i hne
      set rems := passK test g k with hrems
      set g2 := removeEdges g (rems.map fun r => r.1) with hg2
      set sep2 := sep ++ sepAdditions rems with hsep2
      have hg2sub : ∀ x : Edge, x ∈ g2 → x ∈ g := by
        intro x hx
        exact ((mem_removeEdges _ _ _).mp hx).1
      have hanti2 : Antisym g2 := antisym_subset g g2 hg2sub hanti
      have hsym2 : SepSym sep2 := by
        intro i j
        rw [hsep2, lookupSep_append, lookupSep_append, hsym i j,
          lookupSep_sepAdditions_sym]
      have hadds : ∀ i j S, lookupSep (sepAdditions rems) (i, j) = some S →
          ∃ r : Edge × List Node, r ∈ rems ∧ r.2 = S ∧
            (r.1 = ((i, j) : Edge) ∨ r.1 = ((j, i) : Edge)) := by
        intro i j S h
        rw [lookupSep_sepAdditions] at h
        obtain ⟨r, hr, hrS⟩ := Option.map_eq_some'.mp h
        have hp := List.find?_some hr
        rw [Bool.or_eq_true, decide_eq_true_eq, decide_eq_true_eq] at hp
        exact ⟨r, List.mem_of_find?_eq_some hr, hrS, hp⟩
      have hsound2 : SepSound test sep2 g2 := by
        intro i j S h
        rw [hsep2, lookupSep_append] at h
        rcases hcase : lookupSep sep (i, j) with _ | S0
        · rw [hcase] at h
          simp only [Option.orElse] at h
          obtain ⟨r, hrmem, hrS, hrkey⟩ := hadds i j S h
          have hm := passK_mem test g k r hrmem
          have hr1 : r.1 ∈ rems.map fun x : Edge × List Node => x.1 :=
            List.mem_map_of_mem _ hrmem
          rcases hrkey with hkey | hkey
          · refine ⟨Or.inl (by rw [hkey, hrS] at hm; exact hm.2), ?_, ?_⟩
            · intro hc
              exact ((mem_removeEdges _ _ _).mp hc).2 (hkey ▸ hr1)
            · intro hc
              exact hanti i j (hkey ▸ hm.1) (hg2sub _ hc)
          · refine ⟨Or.inr (by rw [hkey, hrS] at hm; exact hm.2), ?_, ?_⟩
            · intro hc
              exact hanti j i (hkey ▸ hm.1) (hg2sub _ hc)
            · intro hc
              exact ((mem_removeEdges _ _ _).mp hc).2 (hkey ▸ hr1)
        · rw [hcase] at h
          simp only [Option.orElse] at h
          cases h
          have hs := hsound i j S hcase
          exact ⟨hs.1, fun hc => hs.2.1 (hg2sub _ hc), fun hc => hs.2.2 (hg2sub _ hc)⟩
      obtain ⟨ha, hb, hc, hd⟩ := ih g2 sep2 (k + 1) hanti2 hsym2 hsound2
      refine ⟨ha, hb, hc, fun i j S h => ?_⟩
      rcases hd i j S h with h1 | h1 | h1
      · rw [hsep2, lookupSep_append] at h1
        rcases hcase : lookupSep sep (i, j) with _ | S0
        · rw [hcase] at h1
          simp only [Option.orElse] at h1
          obtain ⟨r, hrmem, hrS, hrkey⟩ := hadds i j S h1
          have hm := passK_mem test g k r hrmem
          rcases hrkey with hkey | hkey
          · exact Or.inr (Or.inl (hkey ▸ hm.1))
          · exact Or.inr (Or.inr (hkey ▸ hm.1))
        · rw [hcase] at h1
          simp only [Option.orElse] at h1
          injection h1 with hS
          subst hS
          exact Or.inl rfl
      · exact Or.inr (Or.inl (hg2sub _ h1))
      · exact Or.inr (Or.inr (hg2sub _ h1))

/-- Claim C6: the sepset discipline of the skeleton builder.  (i) The sepset
is stored symmetrically: both orderings of a pair look up to the same value.
(ii) Every recorded entry was accepted by the oracle (for the edge's stored
orientation), its pair is absent from the final skeleton in both
orientations, and the pair was an edge of the initial complete graph — the
sepset is defined only for removed edges.  (iii) The per-edge subset search
stops at the first accepted subset: a found separating set is accepted, and
every subset enumerated before it was rejected, so no further subsets are
tested for that edge. -/
theorem c6_sepset_discipline (test : Oracle) (nodes : List Node)
    (hnd : nodes.Nodup) :
    SepSym (pc_step_1_skeleton test nodes).2 ∧
      (∀ i j S, lookupSep (pc_step_1_skeleton test nodes).2 (i, j) = some S →
        (test i j S = true ∨ test j i S = true) ∧
        (i, j) ∉ (pc_step_1_skeleton test nodes).1 ∧
        (j, i) ∉ (pc_step_1_skeleton test nodes).1 ∧
        ((i, j) ∈ complete_graph nodes ∨ (j, i) ∈ complete_graph nodes)) ∧
      ∀ i j cands S, findSep test i j cands = some S →
        test i j S = true ∧
        ∃ pre post, cands = pre ++ S :: post ∧ ∀ S2 ∈ pre, test i j S2 = false := by
  have hinv := skelLoopF_sep_invariant test ((complete_graph nodes).length + 1)
    (complete_graph nodes) [] 0 (complete_graph_antisym nodes hnd)
    (fun _ _ => rfl) (fun i j S h => by cases h)
  refine ⟨hinv.2.1, fun i j S h => ?_, fun i j cands S h => findSep_first test i j cands S h⟩
  have hsound := hinv.2.2.1 i j S h
  have horigin := hinv.2.2.2 i j S h
  refine ⟨hsound.1, hsound.2.1, hsound.2.2, ?_⟩
  rcases horigin with h1 | h1 | h1
  · cases h1
  · exact Or.inl h1
  · exact Or.inr h1

/-- Claim C6 witness: with the oracle that only accepts `0 ⊥ 1` given the
empty set, on the duplicate-free variables `[0, 1, 2]`, the stored sepset of
`(0, 1)` equals that of `(1, 0)`. -/
theorem c6_witness :
    [0, 1, 2].Nodup ∧
      lookupSep (pc_step_1_skeleton oracleC6 [0, 1, 2]).2 (0, 1) =
        lookupSep (pc_step_1_skeleton oracleC6 [0, 1, 2]).2 (1, 0) :=
  ⟨by decide, (c6_sepset_discipline oracleC6 [0, 1, 2] (by decide)).1 0 1⟩
